import Mathlib

/-!
# Verification of the whisper-typer TTS engine and text pipeline

A shallow embedding of the relevant parts of `whisper-typer-rs`:
the TTS queue engine (`code_speaker/api.rs`), the synthesizer's
cancellation surface (`code_speaker/tts.rs`), the summarizer
(`code_speaker/summarizer.rs`), the dictation text post-processing
(`service.rs`), the sentence splitter (`code_speaker/tts.rs`) and the
hook dispatcher (`bin/tts_hook.rs`).

Rust strings are modelled as `List Char`; Rust byte-index operations on
strings are modelled through explicit UTF-8 byte sizes, and operations
that can panic (byte slicing at a non-boundary index) return `Option`
with `none` standing for the panic.
-/

/-- A Rust `String` / `&str`, modelled as its sequence of Unicode scalar values. -/
abbrev RStr := List Char

/-- Number of bytes of the UTF-8 encoding of a scalar value. -/
def utf8Size (c : Char) : Nat :=
  if c.toNat < 0x80 then 1
  else if c.toNat < 0x800 then 2
  else if c.toNat < 0x10000 then 3
  else 4

/-- Rust `str::len`: the length of the string in UTF-8 bytes. -/
def byteLen (s : RStr) : Nat := (s.map utf8Size).sum

/-- Rust byte slice `&s[..k]`: the prefix of `s` covering exactly `k` bytes.
`none` models the panic that Rust raises when `k` is not a character
boundary or exceeds the length. -/
def takeBytes : RStr → Nat → Option RStr
  | _, 0 => some []
  | [], _ + 1 => none
  | c :: rest, k + 1 =>
    if utf8Size c ≤ k + 1 then (takeBytes rest (k + 1 - utf8Size c)).map (fun p => c :: p)
    else none

/-- Rust `char::is_whitespace`: the Unicode `White_Space` property. -/
def rustIsWhitespace (c : Char) : Bool :=
  let n := c.toNat
  (0x09 ≤ n && n ≤ 0x0D) || n = 0x20 || n = 0x85 || n = 0xA0 || n = 0x1680 ||
  (0x2000 ≤ n && n ≤ 0x200A) || n = 0x2028 || n = 0x2029 || n = 0x202F ||
  n = 0x205F || n = 0x3000

/-- Rust `u8::is_ascii_whitespace` (space, tab, newline, form feed, carriage return). -/
def isAsciiWs (c : Char) : Bool :=
  c = ' ' || c = '\t' || c = '\n' || c.toNat = 0x0C || c = '\r'

/-- Rust `str::trim`: remove leading and trailing Unicode whitespace. -/
def rustTrim (s : RStr) : RStr :=
  ((s.dropWhile rustIsWhitespace).reverse.dropWhile rustIsWhitespace).reverse

/-- Helper for `wordCount`: counts maximal non-whitespace runs; the flag
records whether the previous character was inside a word. -/
def countWordsAux : RStr → Bool → Nat
  | [], _ => 0
  | c :: rest, inWord =>
    if rustIsWhitespace c then countWordsAux rest false
    else (if inWord then 0 else 1) + countWordsAux rest true

/-- Rust `str::split_whitespace().count()`: the number of whitespace-separated words. -/
def wordCount (s : RStr) : Nat := countWordsAux s false

-- ### Summarizer (`code_speaker/summarizer.rs`)

/-- The constant `MAX_INPUT_CHARS: usize = 2000` from summarizer.rs. -/
def MAX_INPUT_CHARS : Nat := 2000

/-- The truncation step of `OllamaSummarizer::summarize` (summarizer.rs:45-49):
`if text.len() > MAX_INPUT_CHARS { &text[..MAX_INPUT_CHARS] } else { text }`.
`text.len()` is the byte length and the slice is a byte slice, so the
result is `none` (panic) when byte 2000 is not a character boundary. -/
def summarize_input (text : RStr) : Option RStr :=
  if byteLen text > MAX_INPUT_CHARS then takeBytes text MAX_INPUT_CHARS
  else some text

/-- The part of `SUMMARIZE_PROMPT` before the `text` placeholder. -/
def SUMMARIZE_PROMPT_PRE : RStr :=
  ("Summarize this in 1-2 short sentences suitable for text-to-speech. " ++
   "Be concise and conversational. Output ONLY the summary, nothing else.\n\nText: ").toList

/-- The part of `SUMMARIZE_PROMPT` after the `text` placeholder. -/
def SUMMARIZE_PROMPT_POST : RStr := "\n\nSummary:".toList

/-- Prompt construction in `OllamaSummarizer::summarize` (summarizer.rs:51):
`SUMMARIZE_PROMPT.replace("{text}", input)` on the truncated input. -/
def build_prompt (text : RStr) : Option RStr :=
  (summarize_input text).map
    (fun input => SUMMARIZE_PROMPT_PRE ++ input ++ SUMMARIZE_PROMPT_POST)

/-- Concrete input for the truncation analysis: 1999 ASCII characters
followed by one two-byte character, 2000 characters and 2001 bytes in all. -/
def summarizeCexInput : RStr := List.replicate 1999 'a' ++ ['é']

-- ### Trailing-salutation strip (`service.rs`)

/-- Models Rust `char::to_lowercase` (one character to its full lowercase
mapping) on the characters this development evaluates it at: ASCII is
mapped exactly; U+0130 expands to `i` plus U+0307 and U+212A (Kelvin sign)
maps to `k` per the Unicode special/simple mappings used by Rust. Other
non-ASCII characters are left unchanged; every theorem below applies the
function only to ASCII text and to U+212A, where the model is exact. -/
def charLowerRust (c : Char) : RStr :=
  if c.toNat = 0x130 then ['i', Char.ofNat 0x307]
  else if c.toNat = 0x212A then ['k']
  else if 'A' ≤ c && c ≤ 'Z' then [Char.ofNat (c.toNat + 32)]
  else [c]

/-- Rust `str::to_lowercase`. -/
def rustToLowercase (s : RStr) : RStr := s.flatMap charLowerRust

/-- The three suffixes checked by `strip_trailing_thankyou` (service.rs:148),
in source order. -/
def THANK_SUFFIXES : List RStr :=
  ["thank you.".toList, "thank you!".toList, "thank you".toList]

/-- The loop body of `strip_trailing_thankyou` (service.rs:148-156).
For each suffix: if the lowercased text ends with it, slice the original
`trimmed` at byte index `trimmed.len() - suffix.len()` (a panic — `none` —
if that index is not a character boundary), trim, and return the result
when it has more than 10 words; otherwise continue with the next suffix.
`str::ends_with` is byte-level in Rust; since each pattern starts with an
ASCII byte, a byte-suffix match always lies on a character boundary, so it
coincides with the character-level suffix test used here. -/
def stripGo (trimmed lower : RStr) : List RStr → Option RStr
  | [] => some trimmed
  | suf :: rest =>
    if suf.isSuffixOf lower then
      if byteLen trimmed < byteLen suf then none
      else
        match takeBytes trimmed (byteLen trimmed - byteLen suf) with
        | none => none
        | some sliced =>
          let preceding := rustTrim sliced
          if wordCount preceding > 10 then some preceding
          else stripGo trimmed lower rest
    else stripGo trimmed lower rest

/-- Embedding of `strip_trailing_thankyou` (service.rs:145-158); `none` models a panic. -/
def strip_trailing_thankyou (text : RStr) : Option RStr :=
  let trimmed := rustTrim text
  let lower := rustToLowercase trimmed
  stripGo trimmed lower THANK_SUFFIXES

/-- The claim's reading of the strip, stated at character level (the
"corrected"-claim reference definition, following the spec's words): when
the lowercased trimmed text ends with one of the suffixes, remove that many
trailing characters and return the trimmed preceding prefix if it has more
than 10 words; otherwise the trimmed text unchanged. -/
def stripSpecGo (trimmed lower : RStr) : List RStr → RStr
  | [] => trimmed
  | suf :: rest =>
    if suf.isSuffixOf lower then
      let preceding := rustTrim (trimmed.take (trimmed.length - suf.length))
      if wordCount preceding > 10 then preceding
      else stripSpecGo trimmed lower rest
    else stripSpecGo trimmed lower rest

/-- Character-level specification of `strip_trailing_thankyou`. -/
def stripSpec (text : RStr) : RStr :=
  let trimmed := rustTrim text
  stripSpecGo trimmed (rustToLowercase trimmed) THANK_SUFFIXES

/-- The character U+212A KELVIN SIGN, whose Unicode lowercase mapping is `k`. -/
def kelvinSign : Char := Char.ofNat 0x212A

/-- Concrete input for the strip analysis: eleven words followed by
`Than‹KELVIN SIGN› You`, whose lowercase ends with `thank you`. -/
def stripCexInput : RStr :=
  ("one two three four five six seven eight nine ten eleven Than").toList ++
  [kelvinSign] ++ " You".toList

-- ### Sentence splitting (`code_speaker/tts.rs`)

/-- The split condition of `split_sentences` (tts.rs:509-511): a sentence
terminator byte. -/
def isSentenceDelim (c : Char) : Bool := c = '.' || c = '!' || c = '?'

/-- Models `bytes[i + 1].is_ascii_whitespace()` with the bounds check
`i + 1 < bytes.len()`: the next character starts with an ASCII whitespace
byte. (A multi-byte character never starts with an ASCII byte, so this is
exactly "the next character is ASCII whitespace".) -/
def headIsAsciiWs : RStr → Bool
  | [] => false
  | c :: _ => isAsciiWs c

/-- The loop of `split_sentences` (tts.rs:503-529): `acc` is the current
segment `text[start..i]`; on a delimiter followed by ASCII whitespace the
segment (delimiter included) is trimmed and kept if non-empty; the
remainder is trimmed and kept if non-empty. -/
def splitSentencesGo : RStr → RStr → List RStr
  | [], acc =>
    let s := rustTrim acc
    if s.isEmpty then [] else [s]
  | c :: rest, acc =>
    if isSentenceDelim c && headIsAsciiWs rest then
      let s := rustTrim (acc ++ [c])
      if s.isEmpty then splitSentencesGo rest [] else s :: splitSentencesGo rest []
    else splitSentencesGo rest (acc ++ [c])

/-- Embedding of `split_sentences` (tts.rs:503). -/
def split_sentences (text : RStr) : List RStr := splitSentencesGo text []

/-- Relation `WsJoin text sentences`: `text` is exactly the given sentences in
order, interleaved with (possibly empty) all-whitespace gaps, and every
sentence is non-empty. This is the round-trip property: concatenating the
sentences with the interleaving whitespace reconstructs the input. -/
inductive WsJoin : RStr → List RStr → Prop
  | nil (w : RStr) (hw : ∀ c ∈ w, rustIsWhitespace c) : WsJoin w []
  | cons (w s tail : RStr) (rest : List RStr) (hw : ∀ c ∈ w, rustIsWhitespace c)
      (hs : s ≠ []) (h : WsJoin tail rest) : WsJoin (w ++ (s ++ tail)) (s :: rest)

-- ### TTS queue engine (`code_speaker/api.rs`)

/-- The constant `MAX_DEFERRED: usize = 20` (api.rs:26). -/
def MAX_DEFERRED : Nat := 20

/-- The speak queue is a bounded mpsc channel of capacity 20. The channel
is created by the caller of `start_tts_api`, which is not among the given
sources; the capacity is taken from the spec ("A bounded multi-producer
single-consumer queue (capacity 20)") and from the source's own log line
"Speak queue full (capacity=20)" (api.rs:326). -/
def QUEUE_CAPACITY : Nat := 20

/-- Embedding of `SpeakJob` (api.rs:50-59). -/
structure SpeakJob where
  text : RStr
  summarize : Bool
  event_type : RStr
  start_reminder : Bool
  generation : Nat
  session_id : RStr
  retries : Nat
deriving DecidableEq

/-- The mutable state of the TTS API shared by the handlers and the queue
consumer (`TtsApiState`, api.rs:38-46): the enabled flag, the generation
counter, the pending contents of the speak queue, and the deferred list.
The engine-side members (`tts`, `summarizer`, `reminder`) carry no state
relevant to the queue claims and are modelled separately. -/
structure ApiState where
  enabled : Bool
  generation : Nat
  queue : List SpeakJob
  deferred : List SpeakJob
deriving DecidableEq

/-- Embedding of `SimpleResponse` (api.rs:104-114), restricted to the fields the claims
mention. -/
structure SimpleResponse where
  status : RStr
  error : Option RStr
  requeued : Option Nat
deriving DecidableEq

/-- Embedding of `SimpleResponse::ok` (api.rs:117). -/
def SimpleResponse.ok (status : RStr) : SimpleResponse :=
  { status := status, error := none, requeued := none }

/-- Embedding of `SimpleResponse::err` (api.rs:127). -/
def SimpleResponse.err (message : RStr) : SimpleResponse :=
  { status := "error".toList, error := some message, requeued := none }

/-- Embedding of `SpeakRequest` (api.rs:63-74). -/
structure SpeakRequest where
  text : RStr
  summarize : Bool
  event_type : RStr
  start_reminder : Bool
  session_id : RStr

/-- Models `mpsc::Sender::try_send` on the bounded speak queue: append when below
capacity, fail (returning the queue unchanged) when full. -/
def trySend (queue : List SpeakJob) (job : SpeakJob) : List SpeakJob × Bool :=
  if queue.length < QUEUE_CAPACITY then (queue ++ [job], true) else (queue, false)

/-- Embedding of `handle_speak` (api.rs:284-330): reply `disabled` when disabled; reply
`error`/`empty text` when the trimmed text is empty; otherwise stamp a job
with the current generation and `retries = 0` and try-send it. -/
def handle_speak (st : ApiState) (req : SpeakRequest) : ApiState × SimpleResponse :=
  if st.enabled = false then (st, SimpleResponse.ok "disabled".toList)
  else if rustTrim req.text = [] then (st, SimpleResponse.err "empty text".toList)
  else
    let job : SpeakJob :=
      { text := req.text, summarize := req.summarize, event_type := req.event_type,
        start_reminder := req.start_reminder, generation := st.generation,
        session_id := req.session_id, retries := 0 }
    let r := trySend st.queue job
    if r.2 then ({ st with queue := r.1 }, SimpleResponse.ok "queued".toList)
    else (st, SimpleResponse.err "queue full".toList)

/-- One dequeued job's treatment by the consumer loop in
`spawn_queue_consumer` (api.rs:191-265), acting on the deferred list.
Returns the new deferred list and whether `do_speak` was invoked.
If the job's generation stamp differs from the current generation it is
never spoken: it is pushed to the deferred list when `retries == 0` and
the list holds fewer than `MAX_DEFERRED` items, and dropped otherwise.
A current-generation job is spoken; `cancelled` is the value returned by
`do_speak` (it depends on playback, so it is an oracle here); a job
cancelled mid-speech is re-deferred under the same conditions. -/
def consumeJob (job : SpeakJob) (currentGen : Nat) (deferred : List SpeakJob)
    (cancelled : Bool) : List SpeakJob × Bool :=
  if job.generation ≠ currentGen then
    (if job.retries = 0 ∧ deferred.length < MAX_DEFERRED then deferred ++ [job]
     else deferred, false)
  else
    (if cancelled ∧ job.retries = 0 ∧ deferred.length < MAX_DEFERRED then deferred ++ [job]
     else deferred, true)

/-- One iteration of the queue consumer: pop the head of the queue (if any)
and process it with `consumeJob`. The second component is `none` when the
queue was empty, otherwise `some spoke`. -/
def consumerStep (st : ApiState) (cancelled : Bool) : ApiState × Option Bool :=
  match st.queue with
  | [] => (st, none)
  | job :: rest =>
    let r := consumeJob job st.generation st.deferred cancelled
    ({ st with queue := rest, deferred := r.1 }, some r.2)

/-- The drain-and-requeue loop of `handle_user_input` (api.rs:390-402):
jobs whose `session_id` is empty or equals the supplied id are discarded;
the rest are restamped with the current generation, their retry count is
incremented, and they are try-sent back; `acc` counts successful sends. -/
def requeueLoop (gen : Nat) (sid : RStr) :
    List SpeakJob → List SpeakJob → Nat → List SpeakJob × Nat
  | [], queue, acc => (queue, acc)
  | job :: rest, queue, acc =>
    if job.session_id = [] ∨ job.session_id = sid then requeueLoop gen sid rest queue acc
    else
      let job2 := { job with generation := gen, retries := job.retries + 1 }
      let r := trySend queue job2
      requeueLoop gen sid rest r.1 (if r.2 then acc + 1 else acc)

/-- Embedding of `handle_user_input` (api.rs:373-417): drain the entire deferred list,
run the requeue loop, and answer `ok` with the count of re-queued jobs.
(The reminder cancellation it also performs lives outside `ApiState`.) -/
def handle_user_input (st : ApiState) (sid : RStr) : ApiState × SimpleResponse :=
  let items := st.deferred
  let r := requeueLoop st.generation sid items st.queue 0
  ({ st with deferred := [], queue := r.1 },
   { status := "ok".toList, error := none, requeued := some r.2 })

/-- Embedding of `handle_cancel` (api.rs:348-360), restricted to `ApiState`: increment
the generation counter. (Reminder and synthesizer cancellation touch state
modelled by `TtsState` below.) -/
def handle_cancel (st : ApiState) : ApiState :=
  { st with generation := st.generation + 1 }

/-- Embedding of `handle_enable` (api.rs:419-423). -/
def handle_enable (st : ApiState) : ApiState := { st with enabled := true }

/-- Embedding of `handle_disable` (api.rs:425-434): disable, bump the generation, and
clear the deferred list. -/
def handle_disable (st : ApiState) : ApiState :=
  { st with enabled := false, generation := st.generation + 1, deferred := [] }

/-- One transition of the TTS API state: any handler invocation or one
consumer iteration. `GET /status` and `POST /set-voice` do not touch this
state and are omitted. -/
inductive ApiStep : ApiState → ApiState → Prop
  | speak (st : ApiState) (req : SpeakRequest) : ApiStep st (handle_speak st req).1
  | consume (st : ApiState) (cancelled : Bool) : ApiStep st (consumerStep st cancelled).1
  | userInput (st : ApiState) (sid : RStr) : ApiStep st (handle_user_input st sid).1
  | cancel (st : ApiState) : ApiStep st (handle_cancel st)
  | enable (st : ApiState) : ApiStep st (handle_enable st)
  | disable (st : ApiState) : ApiStep st (handle_disable st)

/-- States reachable from a start state with empty queue and deferred list
(both start empty; the initial flag and counter values are irrelevant). -/
inductive ApiReachable : ApiState → Prop
  | init (st : ApiState) (hq : st.queue = []) (hd : st.deferred = []) : ApiReachable st
  | step (st st' : ApiState) (h : ApiReachable st) (hs : ApiStep st st') : ApiReachable st'

-- ### Synthesizer cancellation surface (`code_speaker/tts.rs`)

/-- The cancellation-relevant state of `KokoroTtsEngine` (tts.rs:62-107):
the cancel flag, the speaking flag, and the active sink. Sinks are
identified by numbers; `stoppedSinks` records every sink that has received
`stop()`, so "stops the active sink" is observable. -/
structure TtsState where
  cancelFlag : Bool
  speaking : Bool
  activeSink : Option Nat
  stoppedSinks : List Nat
deriving DecidableEq

/-- Embedding of `KokoroTtsEngine::cancel` (tts.rs:424-431): raise the cancel flag,
take and stop the active sink, clear the speaking flag. -/
def TtsState.cancel (st : TtsState) : TtsState :=
  { cancelFlag := true,
    speaking := false,
    activeSink := none,
    stoppedSinks :=
      match st.activeSink with
      | some s => st.stoppedSinks ++ [s]
      | none => st.stoppedSinks }

/-- Modelled from the spec: `interrupt()` is not among the given sources
(only its caller `do_speak` in api.rs:453 is); §4.7 of the spec:
"`interrupt()` is a synonym used between queue items" for `cancel()`. -/
def TtsState.interrupt (st : TtsState) : TtsState := st.cancel

/-- Modelled from the spec: `clear_cancel()` is not among the given
sources (only its caller `do_speak` in api.rs:458 is); §4.7 of the spec:
"`clear_cancel()` resets the flag without stopping playback". -/
def TtsState.clear_cancel (st : TtsState) : TtsState :=
  { st with cancelFlag := false }

/-- The synthesizer-state effect of the prelude of `do_speak`
(api.rs:449-458), run before each dequeued job is spoken:
`tts.interrupt()` then `tts.clear_cancel()`. -/
def doSpeakPrelude (st : TtsState) : TtsState := st.interrupt.clear_cancel

-- ### Hook dispatcher Stop handling (`bin/tts_hook.rs`)

/-- A POST to the TTS API's `/speak` issued by the hook (tts_hook.rs:36-41). -/
structure SpeakPost where
  text : RStr
  summarize : Bool
  event_type : RStr
  start_reminder : Bool
deriving DecidableEq

/-- Models `&session_id[..session_id.len().min(8)]` (tts_hook.rs:164): the first
8 bytes of the session id (the whole id when shorter); `none` models the
panic when byte 8 is not a character boundary. -/
def shortStopId (session_id : RStr) : Option RStr :=
  if byteLen session_id ≤ 8 then some session_id else takeBytes session_id 8

/-- The per-session dedup store: the contents of the
`.last-stop-<prefix>` files, keyed by prefix; a missing file reads as the
empty string (`unwrap_or_default`, tts_hook.rs:171). -/
def DedupStore : Type := RStr → RStr

/-- Embedding of `is_duplicate_stop` (tts_hook.rs:169-174): read the previous marker,
overwrite it with the current text, and report whether they were equal.
Returns the updated store and the verdict. -/
def is_duplicate_stop (store : DedupStore) (session_id text : RStr) :
    Option (DedupStore × Bool) :=
  (shortStopId session_id).map (fun key =>
    let previous := store key
    (fun k => if k = key then text else store k, previous == text))

/-- The outcome of one `handle_stop` invocation: the updated dedup store,
the `/speak` posts issued, and the action string it reports. -/
structure StopOutcome where
  store : DedupStore
  posts : List SpeakPost
  action : RStr

/-- Embedding of `handle_stop` (tts_hook.rs:404-475). `hasPath` is whether the event
carries a non-empty `transcript_path`; `extracted` is the result of
`extract_last_assistant_text` on that path (file contents are external
input); `isFocus` and `idle` are the focus-file and `/status` observations.
`none` models a panic (only possible in the session-id byte slice). -/
def handle_stop (store : DedupStore) (session_id : RStr) (hasPath : Bool)
    (extracted : Option RStr) (isFocus idle : Bool) (project : RStr) :
    Option StopOutcome :=
  if hasPath = false then some ⟨store, [], "skipped".toList⟩
  else
    match extracted with
    | none => some ⟨store, [], "skipped".toList⟩
    | some text =>
      match is_duplicate_stop store session_id text with
      | none => none
      | some (store2, dup) =>
        if dup then some ⟨store2, [], "skipped".toList⟩
        else if isFocus then
          some ⟨store2,
                [{ text := text, summarize := true, event_type := "stop".toList,
                   start_reminder := true }], "spoke".toList⟩
        else if idle then
          some ⟨store2,
                [{ text := project ++ " finished.".toList, summarize := false,
                   event_type := "background_stop".toList, start_reminder := false }],
                "spoke_background".toList⟩
        else some ⟨store2, [], "skipped".toList⟩

-- ### Derived predicates and concrete instances used by the theorems

/-- A string whose characters are all ASCII. -/
def IsAsciiStr (s : RStr) : Prop := ∀ c ∈ s, c.toNat < 0x80

instance (s : RStr) : Decidable (IsAsciiStr s) := by
  unfold IsAsciiStr; infer_instance

/-- The deferred jobs `handle_user_input` keeps: session id neither empty
nor equal to the supplied one. -/
def requeueKept (sid : RStr) (items : List SpeakJob) : List SpeakJob :=
  items.filter (fun j => !(j.session_id == [] || j.session_id == sid))

/-- Restamping applied by `handle_user_input` before re-sending a job. -/
def restampJob (gen : Nat) (j : SpeakJob) : SpeakJob :=
  { j with generation := gen, retries := j.retries + 1 }

/-- A start state of the TTS API: enabled, generation 0, both lists empty. -/
def initialApiState : ApiState :=
  { enabled := true, generation := 0, queue := [], deferred := [] }

/-- A plain speak request. -/
def sampleReq : SpeakRequest :=
  { text := "build finished".toList, summarize := false, event_type := "stop".toList,
    start_reminder := false, session_id := "s1".toList }

/-- A whitespace-only speak request. -/
def wsOnlyReq : SpeakRequest :=
  { text := " \t\n".toList, summarize := true, event_type := "stop".toList,
    start_reminder := false, session_id := "s1".toList }

/-- A job stamped at generation 0. -/
def staleJob : SpeakJob :=
  { text := "old news".toList, summarize := false, event_type := "stop".toList,
    start_reminder := false, generation := 0, session_id := "s2".toList, retries := 0 }

/-- A state whose generation has moved past `staleJob`'s stamp. -/
def staleState : ApiState :=
  { enabled := true, generation := 1, queue := [staleJob], deferred := [] }

/-- The result `strip_trailing_thankyou` produces on `stripCexInput`. -/
def stripCexCodeResult : RStr :=
  "one two three four five six seven eight nine ten eleven Th".toList

/-- The words preceding the case-insensitive `thank you` suffix of
`stripCexInput`. -/
def stripCexPre : RStr :=
  "one two three four five six seven eight nine ten eleven ".toList

/-- The trailing segment of `stripCexInput` whose lowercase is `thank you`. -/
def stripCexMatched : RStr := "Than".toList ++ [kelvinSign] ++ " You".toList

/-- An ASCII dictation ending in a salutation after more than 10 words. -/
def stripWitnessInput : RStr :=
  "Work on the main branch is done and the tests pass now, thank you.".toList

/-- The inductive invariant of the queue engine: every queued job carries
at most one retry, every deferred job carries none, and the deferred list
is within its capacity. -/
def QueueInvariant (st : ApiState) : Prop :=
  (∀ j ∈ st.queue, j.retries ≤ 1) ∧ (∀ j ∈ st.deferred, j.retries = 0) ∧
  st.deferred.length ≤ MAX_DEFERRED

-- ## Lemmas about the byte-level string model

theorem utf8Size_pos (c : Char) : 0 < utf8Size c := by
  unfold utf8Size; split_ifs <;> omega

theorem byteLen_nil : byteLen [] = 0 := rfl

theorem byteLen_cons (c : Char) (l : RStr) :
    byteLen (c :: l) = utf8Size c + byteLen l := by
  simp [byteLen]

theorem byteLen_append (a b : RStr) :
    byteLen (a ++ b) = byteLen a + byteLen b := by
  simp [byteLen]

theorem byteLen_eq_zero {l : RStr} : byteLen l = 0 ↔ l = [] := by
  cases l with
  | nil => simp [byteLen_nil]
  | cons c t =>
    simp only [byteLen_cons]
    have := utf8Size_pos c
    constructor
    · intro h; omega
    · intro h; exact absurd h (List.cons_ne_nil c t)

theorem takeBytes_some_iff (l : RStr) :
    ∀ (k : Nat) (p : RStr),
      takeBytes l k = some p ↔ (∃ q, p ++ q = l) ∧ byteLen p = k := by
  induction l with
  | nil =>
    intro k p
    cases k with
    | zero =>
      simp only [takeBytes, Option.some.injEq]
      constructor
      · rintro rfl; exact ⟨⟨[], rfl⟩, rfl⟩
      · rintro ⟨⟨q, hq⟩, _⟩
        rcases List.append_eq_nil.mp hq with ⟨rfl, rfl⟩
        rfl
    | succ k =>
      simp only [takeBytes]
      constructor
      · intro h; exact absurd h (Option.noConfusion)
      · rintro ⟨⟨q, hq⟩, hb⟩
        rcases List.append_eq_nil.mp hq with ⟨rfl, rfl⟩
        simp [byteLen_nil] at hb
  | cons c rest ih =>
    intro k p
    cases k with
    | zero =>
      simp only [takeBytes, Option.some.injEq]
      constructor
      · rintro rfl; exact ⟨⟨c :: rest, rfl⟩, rfl⟩
      · rintro ⟨⟨q, hq⟩, hb⟩
        rcases byteLen_eq_zero.mp hb with rfl
        rfl
    | succ k =>
      simp only [takeBytes]
      by_cases hsz : utf8Size c ≤ k + 1
      · simp only [if_pos hsz, Option.map_eq_some']
        constructor
        · rintro ⟨p', hp', rfl⟩
          rcases (ih (k + 1 - utf8Size c) p').mp hp' with ⟨⟨q, hq⟩, hb⟩
          refine ⟨⟨q, by rw [List.cons_append, hq]⟩, ?_⟩
          rw [byteLen_cons, hb]; omega
        · rintro ⟨⟨q, hq⟩, hb⟩
          cases p with
          | nil => simp [byteLen_nil] at hb
          | cons a p' =>
            rw [List.cons_append] at hq
            injection hq with h1 h2
            cases h1
            rw [byteLen_cons] at hb
            refine ⟨p', (ih (k + 1 - utf8Size c) p').mpr ⟨⟨q, h2⟩, by omega⟩, rfl⟩
      · simp only [if_neg hsz]
        constructor
        · intro h; exact absurd h (Option.noConfusion)
        · rintro ⟨⟨q, hq⟩, hb⟩
          cases p with
          | nil => simp [byteLen_nil] at hb
          | cons a p' =>
            rw [List.cons_append] at hq
            injection hq with h1 h2
            cases h1
            rw [byteLen_cons] at hb
            have := utf8Size_pos c
            omega

theorem byteLen_replicate_one (n : Nat) (c : Char) (hc : utf8Size c = 1) :
    byteLen (List.replicate n c) = n := by
  induction n with
  | zero => rfl
  | succ m ih => rw [List.replicate_succ, byteLen_cons, hc, ih]; omega

theorem takeBytes_replicate_one_append (c : Char) (hc : utf8Size c = 1) (l : RStr)
    (k : Nat) (hk : 0 < k) :
    ∀ n, takeBytes (List.replicate n c ++ l) (n + k) =
      (takeBytes l k).map (fun p => List.replicate n c ++ p) := by
  intro n
  induction n with
  | zero =>
    simp only [List.replicate, List.nil_append, Nat.zero_add]
    cases h : takeBytes l k <;> simp
  | succ m ih =>
    have hstep : takeBytes (List.replicate (m + 1) c ++ l) (m + 1 + k) =
        (takeBytes (List.replicate m c ++ l) (m + k)).map (fun p => c :: p) := by
      rw [List.replicate_succ, List.cons_append]
      have hk1 : m + 1 + k = (m + k) + 1 := by omega
      rw [hk1]
      simp only [takeBytes, hc]
      rw [if_pos (by omega)]
      congr 1
    rw [hstep, ih, Option.map_map]
    cases h : takeBytes l k <;> simp [List.replicate_succ]

/-- C6 — counterexample. The truncation in `OllamaSummarizer::summarize` is
not by characters: `summarizeCexInput` has exactly 2000 characters, so by
the claim it should be used whole and never fail, yet the code observes a
byte length of 2001 (> 2000) and slices at byte 2000, which falls inside
the final two-byte character and panics. -/
theorem summarize_char_trunc_cex :
    summarizeCexInput.length = 2000 ∧ summarize_input summarizeCexInput = none := by
  have ha : utf8Size 'a' = 1 := by decide
  have he : utf8Size 'é' = 2 := by decide
  constructor
  · rw [summarizeCexInput, List.length_append, List.length_replicate]
    rfl
  · have hblen : byteLen summarizeCexInput = 2001 := by
      rw [summarizeCexInput, byteLen_append, byteLen_replicate_one 1999 'a' ha]
      simp [byteLen_cons, byteLen_nil, he]
    have htb : takeBytes summarizeCexInput 2000 = none := by
      have h2000 : (2000 : Nat) = 1999 + 1 := by omega
      rw [summarizeCexInput, h2000,
        takeBytes_replicate_one_append 'a' ha ['é'] 1 (by omega) 1999]
      have : takeBytes ['é'] 1 = none := by
        simp only [takeBytes, he]
        rw [if_neg (by omega)]
      rw [this]
      rfl
    rw [summarize_input, hblen, if_pos (by norm_num [MAX_INPUT_CHARS])]
    exact htb

/-- C6 — amended. The summarizer truncates by UTF-8 bytes, not characters:
whenever the truncation step succeeds its output is a prefix of the input
of byte length `min (byteLen text) 2000`, and the prompt is built around
exactly that prefix; the step fails (the byte slice panics) precisely when
the input's byte length exceeds 2000 and no prefix of the input covers
exactly 2000 bytes, i.e. a multi-byte character straddles byte 2000. -/
theorem summarize_input_bytes (text : RStr) :
    (∀ out, summarize_input text = some out →
      (∃ q, out ++ q = text) ∧ byteLen out = min (byteLen text) MAX_INPUT_CHARS ∧
      build_prompt text = some (SUMMARIZE_PROMPT_PRE ++ out ++ SUMMARIZE_PROMPT_POST)) ∧
    (summarize_input text = none ↔
      MAX_INPUT_CHARS < byteLen text ∧
      ∀ p q, p ++ q = text → byteLen p ≠ MAX_INPUT_CHARS) := by
  by_cases hgt : byteLen text > MAX_INPUT_CHARS
  · have hdef : summarize_input text = takeBytes text MAX_INPUT_CHARS := by
      rw [summarize_input, if_pos hgt]
    constructor
    · intro out hout
      rw [hdef] at hout
      rcases (takeBytes_some_iff text MAX_INPUT_CHARS out).mp hout with ⟨⟨q, hq⟩, hb⟩
      refine ⟨⟨q, hq⟩, ?_, ?_⟩
      · rw [hb]; omega
      · rw [build_prompt, hdef, hout]; rfl
    · rw [hdef]
      constructor
      · intro hnone
        refine ⟨hgt, ?_⟩
        intro p q hpq hb
        have : takeBytes text MAX_INPUT_CHARS = some p :=
          (takeBytes_some_iff text MAX_INPUT_CHARS p).mpr ⟨⟨q, hpq⟩, hb⟩
        rw [hnone] at this
        exact Option.noConfusion this
      · rintro ⟨_, hall⟩
        cases heq : takeBytes text MAX_INPUT_CHARS with
        | none => rfl
        | some p =>
          rcases (takeBytes_some_iff text MAX_INPUT_CHARS p).mp heq with ⟨⟨q, hq⟩, hb⟩
          exact absurd hb (hall p q hq)
  · have hdef : summarize_input text = some text := by
      rw [summarize_input, if_neg hgt]
    constructor
    · intro out hout
      rw [hdef, Option.some.injEq] at hout
      subst hout
      refine ⟨⟨[], List.append_nil _⟩, by omega, ?_⟩
      rw [build_prompt, hdef]; rfl
    · rw [hdef]
      constructor
      · intro h; exact absurd h (Option.noConfusion)
      · rintro ⟨h, _⟩; omega

/-- Witness for `summarize_input_bytes` at the one-character input `a`. -/
theorem summarize_input_bytes_witness :
    summarize_input ['a'] = some ['a'] ∧
    (∃ q, ['a'] ++ q = ['a']) ∧ byteLen ['a'] = min (byteLen ['a']) MAX_INPUT_CHARS ∧
    build_prompt ['a'] = some (SUMMARIZE_PROMPT_PRE ++ ['a'] ++ SUMMARIZE_PROMPT_POST) :=
  ⟨by decide, (summarize_input_bytes ['a']).1 ['a'] (by decide)⟩

-- ## Lemmas about trimming and whitespace

theorem allWs_of_dropWhile_eq_nil {l : RStr}
    (h : l.dropWhile rustIsWhitespace = []) : ∀ c ∈ l, rustIsWhitespace c := by
  induction l with
  | nil => intro c hc; exact absurd hc (List.not_mem_nil c)
  | cons a t ih =>
    rw [List.dropWhile_cons] at h
    by_cases ha : rustIsWhitespace a
    · rw [if_pos ha] at h
      intro c hc
      rcases List.mem_cons.mp hc with rfl | hct
      · exact ha
      · exact ih h c hct
    · rw [if_neg ha] at h
      exact absurd h (List.cons_ne_nil a t)

theorem dropWhile_eq_nil_of_allWs {l : RStr}
    (h : ∀ c ∈ l, rustIsWhitespace c) : l.dropWhile rustIsWhitespace = [] := by
  induction l with
  | nil => rfl
  | cons a t ih =>
    rw [List.dropWhile_cons, if_pos (h a (List.mem_cons_self a t))]
    exact ih (fun c hc => h c (List.mem_cons_of_mem a hc))

theorem rustTrim_eq_nil_of_allWs {l : RStr}
    (h : ∀ c ∈ l, rustIsWhitespace c) : rustTrim l = [] := by
  rw [rustTrim, dropWhile_eq_nil_of_allWs h]
  rfl

theorem allWs_of_rustTrim_eq_nil {l : RStr}
    (h : rustTrim l = []) : ∀ c ∈ l, rustIsWhitespace c := by
  rw [rustTrim] at h
  have h2 : (l.dropWhile rustIsWhitespace).reverse.dropWhile rustIsWhitespace = [] := by
    have := congrArg List.reverse h
    simpa using this
  have h3 : ∀ c ∈ (l.dropWhile rustIsWhitespace).reverse, rustIsWhitespace c :=
    allWs_of_dropWhile_eq_nil h2
  have h4 : ∀ c ∈ l.dropWhile rustIsWhitespace, rustIsWhitespace c := by
    intro c hc; exact h3 c (List.mem_reverse.mpr hc)
  intro c hc
  by_cases hmem : c ∈ l.takeWhile rustIsWhitespace
  · exact List.mem_takeWhile_imp hmem
  · have : c ∈ l.takeWhile rustIsWhitespace ++ l.dropWhile rustIsWhitespace := by
      rw [List.takeWhile_append_dropWhile]; exact hc
    rcases List.mem_append.mp this with h5 | h5
    · exact absurd h5 hmem
    · exact h4 c h5

theorem rustTrim_decompose (l : RStr) :
    ∃ w w2, (∀ c ∈ w, rustIsWhitespace c) ∧ (∀ c ∈ w2, rustIsWhitespace c) ∧
      l = w ++ (rustTrim l ++ w2) := by
  refine ⟨l.takeWhile rustIsWhitespace,
    ((l.dropWhile rustIsWhitespace).reverse.takeWhile rustIsWhitespace).reverse,
    ?_, ?_, ?_⟩
  · intro c hc; exact List.mem_takeWhile_imp hc
  · intro c hc
    exact List.mem_takeWhile_imp (List.mem_reverse.mp hc)
  · rw [rustTrim]
    conv_lhs => rw [← List.takeWhile_append_dropWhile rustIsWhitespace l]
    congr 1
    set m := l.dropWhile rustIsWhitespace with hm
    have h2 := congrArg List.reverse
      (List.takeWhile_append_dropWhile rustIsWhitespace m.reverse)
    rw [List.reverse_append, List.reverse_reverse] at h2
    exact h2.symm

theorem mem_rustTrim {c : Char} {l : RStr} (h : c ∈ rustTrim l) : c ∈ l := by
  rcases rustTrim_decompose l with ⟨w, w2, _, _, hl⟩
  rw [hl]
  exact List.mem_append.mpr (Or.inr (List.mem_append.mpr (Or.inl h)))

-- ## Sentence-splitting round trip

theorem wsJoin_prepend {w t : RStr} {R : List RStr}
    (hw : ∀ c ∈ w, rustIsWhitespace c) (h : WsJoin t R) : WsJoin (w ++ t) R := by
  induction h with
  | nil w2 hw2 =>
    exact WsJoin.nil (w ++ w2) (by
      intro c hc
      rcases List.mem_append.mp hc with h1 | h1
      · exact hw c h1
      · exact hw2 c h1)
  | cons w2 s tail rest hw2 hs htail _ =>
    rw [← List.append_assoc]
    exact WsJoin.cons (w ++ w2) s tail rest (by
      intro c hc
      rcases List.mem_append.mp hc with h1 | h1
      · exact hw c h1
      · exact hw2 c h1) hs htail

theorem splitSentencesGo_wsJoin :
    ∀ (rest acc : RStr), WsJoin (acc ++ rest) (splitSentencesGo rest acc) := by
  intro rest
  induction rest with
  | nil =>
    intro acc
    rw [List.append_nil]
    simp only [splitSentencesGo]
    by_cases hs : (rustTrim acc).isEmpty
    · rw [if_pos hs]
      exact WsJoin.nil acc
        (allWs_of_rustTrim_eq_nil (List.isEmpty_iff.mp hs))
    · rw [if_neg hs]
      set t := rustTrim acc with htdef
      rcases rustTrim_decompose acc with ⟨w, w2, hw, hw2, hacc⟩
      rw [← htdef] at hacc
      rw [hacc]
      exact WsJoin.cons w t w2 []
        hw (fun hnil => hs (by rw [hnil]; rfl)) (WsJoin.nil w2 hw2)
  | cons c rest2 ih =>
    intro acc
    simp only [splitSentencesGo]
    by_cases hcond : (isSentenceDelim c && headIsAsciiWs rest2) = true
    · rw [if_pos hcond]
      have hacc : acc ++ c :: rest2 = (acc ++ [c]) ++ rest2 := by
        rw [List.append_assoc]; rfl
      by_cases hs : (rustTrim (acc ++ [c])).isEmpty
      · rw [if_pos hs, hacc]
        exact wsJoin_prepend
          (allWs_of_rustTrim_eq_nil (List.isEmpty_iff.mp hs))
          (by simpa using ih [])
      · rw [if_neg hs]
        set t := rustTrim (acc ++ [c]) with htdef
        rcases rustTrim_decompose (acc ++ [c]) with ⟨w, w2, hw, hw2, hdec⟩
        rw [← htdef] at hdec
        rw [hacc, hdec, List.append_assoc, List.append_assoc]
        exact WsJoin.cons w t (w2 ++ rest2) (splitSentencesGo rest2 [])
          hw (fun hnil => hs (by rw [hnil]; rfl))
          (wsJoin_prepend hw2 (by simpa using ih []))
    · rw [if_neg hcond]
      have hacc : acc ++ c :: rest2 = (acc ++ [c]) ++ rest2 := by
        rw [List.append_assoc]; rfl
      rw [hacc]
      exact ih (acc ++ [c])

/-- C9 — confirmed. `split_sentences` loses no characters beyond boundary
whitespace: every input is exactly its returned sentences, in order,
interleaved with all-whitespace gaps (the leading gap covering leading
whitespace, the trailing one trailing whitespace), and every sentence is
non-empty. Concatenating the sentences with those gaps reconstructs the
input, which up to the leading/trailing whitespace of the whole string is
the round-trip property. -/
theorem split_sentences_reconstruct (text : RStr) :
    WsJoin text (split_sentences text) := by
  have h := splitSentencesGo_wsJoin text []
  rw [List.nil_append] at h
  exact h

-- ## Queue consumer: stale jobs

/-- C1 — confirmed. In the queue consumer, a dequeued job whose generation
stamp differs from the current generation counter is never spoken
(`do_speak` is not invoked: the spoke flag is `false`); it is pushed onto
the deferred list exactly when its retries count is 0 and the deferred
list holds fewer than 20 items, and dropped (deferred list unchanged)
otherwise. -/
theorem stale_job_never_speaks (st : ApiState) (job : SpeakJob) (rest : List SpeakJob)
    (cancelled : Bool) (hq : st.queue = job :: rest)
    (hstale : job.generation ≠ st.generation) :
    (consumerStep st cancelled).2 = some false ∧
    (consumerStep st cancelled).1.deferred =
      (if job.retries = 0 ∧ st.deferred.length < MAX_DEFERRED
       then st.deferred ++ [job] else st.deferred) ∧
    (consumerStep st cancelled).1.queue = rest := by
  have hjob : consumeJob job st.generation st.deferred cancelled =
      ((if job.retries = 0 ∧ st.deferred.length < MAX_DEFERRED
        then st.deferred ++ [job] else st.deferred), false) := by
    unfold consumeJob
    rw [if_pos hstale]
  have hstep : consumerStep st cancelled =
      ({ st with
          queue := rest,
          deferred := (consumeJob job st.generation st.deferred cancelled).1 },
       some (consumeJob job st.generation st.deferred cancelled).2) := by
    unfold consumerStep
    rw [hq]
  rw [hstep, hjob]
  exact ⟨rfl, rfl, rfl⟩

/-- Witness for `stale_job_never_speaks`: a generation-0 job dequeued after
the counter moved to 1. -/
theorem stale_job_never_speaks_witness :
    (consumerStep staleState false).2 = some false ∧
    (consumerStep staleState false).1.deferred =
      (if staleJob.retries = 0 ∧ staleState.deferred.length < MAX_DEFERRED
       then staleState.deferred ++ [staleJob] else staleState.deferred) ∧
    (consumerStep staleState false).1.queue = [] :=
  stale_job_never_speaks staleState staleJob [] false rfl (by decide)

-- ## Synthesizer cancellation surface

/-- C5 — confirmed (interrupt/clear_cancel modelled from the spec, their
definitions being outside the given sources). `cancel()` raises the cancel
flag and stops and releases the active sink; `interrupt()` is a synonym
for `cancel()`; `clear_cancel()` resets the cancel flag and leaves the
sink, the stopped-sink record and the speaking flag alone; and the
`do_speak` prelude run before each dequeued job ends with `clear_cancel`,
so the job starts with a clear cancel flag (and no active sink, the
prelude having interrupted any in-flight speech). -/
theorem tts_cancel_semantics :
    (∀ st : TtsState, st.cancel.cancelFlag = true ∧ st.cancel.activeSink = none ∧
      (∀ s, st.activeSink = some s → s ∈ st.cancel.stoppedSinks)) ∧
    (∀ st : TtsState, st.interrupt = st.cancel) ∧
    (∀ st : TtsState, st.clear_cancel.cancelFlag = false ∧
      st.clear_cancel.activeSink = st.activeSink ∧
      st.clear_cancel.stoppedSinks = st.stoppedSinks ∧
      st.clear_cancel.speaking = st.speaking) ∧
    (∀ st : TtsState, (doSpeakPrelude st).cancelFlag = false ∧
      (doSpeakPrelude st).activeSink = none) := by
  refine ⟨?_, ?_, ?_, ?_⟩
  · intro st
    refine ⟨rfl, rfl, ?_⟩
    intro s hs
    simp [TtsState.cancel, hs]
  · intro st; rfl
  · intro st; exact ⟨rfl, rfl, rfl, rfl⟩
  · intro st; exact ⟨rfl, rfl⟩

/-- Witness for `tts_cancel_semantics` at a state with an active sink. -/
theorem tts_cancel_semantics_witness :
    (TtsState.cancel ⟨false, true, some 3, []⟩).cancelFlag = true ∧
    3 ∈ (TtsState.cancel ⟨false, true, some 3, []⟩).stoppedSinks :=
  ⟨(tts_cancel_semantics.1 ⟨false, true, some 3, []⟩).1,
   (tts_cancel_semantics.1 ⟨false, true, some 3, []⟩).2.2 3 rfl⟩

-- ## Empty-text speak requests

/-- C10 — confirmed. A `/speak` request while enabled whose text is empty
or all-whitespace gets the response `status = "error"`, `error = "empty
text"`, and leaves the state (queue, generation counter, deferred list,
enabled flag) untouched. -/
theorem speak_empty_text_error (st : ApiState) (req : SpeakRequest)
    (hen : st.enabled = true)
    (hws : ∀ c ∈ req.text, rustIsWhitespace c) :
    handle_speak st req = (st, SimpleResponse.err "empty text".toList) := by
  unfold handle_speak
  rw [if_neg (by rw [hen]; simp), if_pos (rustTrim_eq_nil_of_allWs hws)]

/-- Witness for `speak_empty_text_error` on a whitespace-only request. -/
theorem speak_empty_text_error_witness :
    handle_speak initialApiState wsOnlyReq =
      (initialApiState, SimpleResponse.err "empty text".toList) :=
  speak_empty_text_error initialApiState wsOnlyReq rfl (by decide)

-- ## User-input requeue characterization

theorem requeueKept_cons_discard {sid : RStr} {j : SpeakJob} (rest : List SpeakJob)
    (h : j.session_id = [] ∨ j.session_id = sid) :
    requeueKept sid (j :: rest) = requeueKept sid rest := by
  simp only [requeueKept, List.filter_cons]
  rcases h with h | h <;> simp [h]

theorem requeueKept_cons_keep {sid : RStr} {j : SpeakJob} (rest : List SpeakJob)
    (h : ¬(j.session_id = [] ∨ j.session_id = sid)) :
    requeueKept sid (j :: rest) = j :: requeueKept sid rest := by
  simp only [requeueKept, List.filter_cons]
  push_neg at h
  simp [h.1, h.2]

theorem trySend_full {queue : List SpeakJob} (job : SpeakJob)
    (h : ¬queue.length < QUEUE_CAPACITY) : trySend queue job = (queue, false) := by
  unfold trySend; rw [if_neg h]

theorem trySend_room {queue : List SpeakJob} (job : SpeakJob)
    (h : queue.length < QUEUE_CAPACITY) : trySend queue job = (queue ++ [job], true) := by
  unfold trySend; rw [if_pos h]

theorem requeueLoop_spec (gen : Nat) (sid : RStr) :
    ∀ (items queue : List SpeakJob) (acc : Nat),
      requeueLoop gen sid items queue acc =
        (queue ++ ((requeueKept sid items).map (restampJob gen)).take
            (QUEUE_CAPACITY - queue.length),
         acc + min (requeueKept sid items).length (QUEUE_CAPACITY - queue.length)) := by
  intro items
  induction items with
  | nil =>
    intro queue acc
    simp [requeueLoop, requeueKept]
  | cons j rest ih =>
    intro queue acc
    by_cases hdis : j.session_id = [] ∨ j.session_id = sid
    · rw [requeueLoop, if_pos hdis, ih queue acc, requeueKept_cons_discard rest hdis]
    · rw [requeueLoop, if_neg hdis, requeueKept_cons_keep rest hdis]
      simp only [List.map_cons]
      by_cases hlen : queue.length < QUEUE_CAPACITY
      · rw [trySend_room _ hlen]
        refine (ih (queue ++ [restampJob gen j]) (acc + 1)).trans ?_
        have hlen2 : (queue ++ [restampJob gen j]).length = queue.length + 1 := by
          simp
        rw [hlen2]
        have hsplit : QUEUE_CAPACITY - queue.length =
            (QUEUE_CAPACITY - (queue.length + 1)) + 1 := by omega
        rw [hsplit, List.take_succ_cons]
        simp only [Prod.mk.injEq]
        constructor
        · rw [List.append_assoc]; rfl
        · have := List.length_cons j (requeueKept sid rest)
          omega
      · rw [trySend_full _ hlen]
        refine (ih queue acc).trans ?_
        have h0 : QUEUE_CAPACITY - queue.length = 0 := by omega
        rw [h0]
        simp

/-- C3 — confirmed. `POST /user-input` empties the deferred list entirely;
the queue is extended by exactly the deferred jobs whose session id is
neither empty nor the supplied one, each restamped with the current
generation and its retries incremented, in order, cut off where the
bounded queue fills up; the reported `requeued` count is the number of
jobs that fit (the successful try-sends); and the generation counter and
enabled flag are untouched. -/
theorem user_input_requeue (st : ApiState) (sid : RStr) :
    (handle_user_input st sid).1.deferred = [] ∧
    (handle_user_input st sid).1.queue =
      st.queue ++ ((requeueKept sid st.deferred).map (restampJob st.generation)).take
        (QUEUE_CAPACITY - st.queue.length) ∧
    (handle_user_input st sid).2.requeued =
      some (min (requeueKept sid st.deferred).length (QUEUE_CAPACITY - st.queue.length)) ∧
    (handle_user_input st sid).2.status = "ok".toList ∧
    (handle_user_input st sid).1.generation = st.generation ∧
    (handle_user_input st sid).1.enabled = st.enabled := by
  have h := requeueLoop_spec st.generation sid st.deferred st.queue 0
  refine ⟨rfl, ?_, ?_, rfl, rfl, rfl⟩
  · show (requeueLoop st.generation sid st.deferred st.queue 0).1 = _
    rw [h]
  · show some (requeueLoop st.generation sid st.deferred st.queue 0).2 = _
    rw [h]
    simp

-- ## The queue-engine invariant

theorem handle_speak_queue_cases (st : ApiState) (req : SpeakRequest) :
    (handle_speak st req).1 = st ∨
    ∃ job : SpeakJob, job.retries = 0 ∧
      (handle_speak st req).1 = { st with queue := st.queue ++ [job] } := by
  simp only [handle_speak]
  by_cases he : st.enabled = false
  · rw [if_pos he]; exact Or.inl rfl
  · rw [if_neg he]
    by_cases ht : rustTrim req.text = []
    · rw [if_pos ht]; exact Or.inl rfl
    · rw [if_neg ht]
      by_cases hlen : st.queue.length < QUEUE_CAPACITY
      · rw [trySend_room _ hlen]
        exact Or.inr ⟨_, rfl, rfl⟩
      · rw [trySend_full _ hlen]
        exact Or.inl rfl

theorem queueInvariant_speak (st : ApiState) (req : SpeakRequest)
    (h : QueueInvariant st) : QueueInvariant (handle_speak st req).1 := by
  obtain ⟨h1, h2, h3⟩ := h
  rcases handle_speak_queue_cases st req with heq | ⟨job, hr0, heq⟩
  · rw [heq]; exact ⟨h1, h2, h3⟩
  · rw [heq]
    refine ⟨?_, h2, h3⟩
    intro j hj
    rcases List.mem_append.mp hj with hj | hj
    · exact h1 j hj
    · rw [List.mem_singleton.mp hj, hr0]
      exact Nat.zero_le 1

theorem queueInvariant_consume (st : ApiState) (cancelled : Bool)
    (h : QueueInvariant st) : QueueInvariant (consumerStep st cancelled).1 := by
  obtain ⟨h1, h2, h3⟩ := h
  cases hq : st.queue with
  | nil =>
    have hstep : consumerStep st cancelled = (st, none) := by
      unfold consumerStep; rw [hq]
    rw [hstep]; exact ⟨h1, h2, h3⟩
  | cons job rest =>
    have hstep : (consumerStep st cancelled).1 =
        { st with
            queue := rest,
            deferred := (consumeJob job st.generation st.deferred cancelled).1 } := by
      unfold consumerStep; rw [hq]
    rw [hstep]
    have hq1 : ∀ j ∈ rest, j.retries ≤ 1 := fun j hj =>
      h1 j (by rw [hq]; exact List.mem_cons_of_mem _ hj)
    have hdef : (consumeJob job st.generation st.deferred cancelled).1 = st.deferred ∨
        (job.retries = 0 ∧ st.deferred.length < MAX_DEFERRED ∧
         (consumeJob job st.generation st.deferred cancelled).1 = st.deferred ++ [job]) := by
      unfold consumeJob
      by_cases hg : job.generation ≠ st.generation
      · rw [if_pos hg]
        by_cases hc : job.retries = 0 ∧ st.deferred.length < MAX_DEFERRED
        · rw [if_pos hc]; exact Or.inr ⟨hc.1, hc.2, rfl⟩
        · rw [if_neg hc]; exact Or.inl rfl
      · rw [if_neg hg]
        by_cases hc : cancelled ∧ job.retries = 0 ∧ st.deferred.length < MAX_DEFERRED
        · rw [if_pos hc]; exact Or.inr ⟨hc.2.1, hc.2.2, rfl⟩
        · rw [if_neg hc]; exact Or.inl rfl
    rcases hdef with hd | ⟨hr0, hlt, hd⟩
    · rw [hd]; exact ⟨hq1, h2, h3⟩
    · rw [hd]
      refine ⟨hq1, ?_, ?_⟩
      · intro j hj
        rcases List.mem_append.mp hj with hj | hj
        · exact h2 j hj
        · rw [List.mem_singleton.mp hj]; exact hr0
      · rw [List.length_append, List.length_singleton]
        omega

theorem queueInvariant_userInput (st : ApiState) (sid : RStr)
    (h : QueueInvariant st) : QueueInvariant (handle_user_input st sid).1 := by
  obtain ⟨h1, h2, _⟩ := h
  refine ⟨?_, ?_, ?_⟩
  · have hq : (handle_user_input st sid).1.queue =
        st.queue ++ ((requeueKept sid st.deferred).map (restampJob st.generation)).take
          (QUEUE_CAPACITY - st.queue.length) := by
      show (requeueLoop st.generation sid st.deferred st.queue 0).1 = _
      rw [requeueLoop_spec]
    rw [hq]
    intro j hj
    rcases List.mem_append.mp hj with hj | hj
    · exact h1 j hj
    · have hj2 := List.take_subset _ _ hj
      rcases List.mem_map.mp hj2 with ⟨j0, hj0, rfl⟩
      have hmem : j0 ∈ st.deferred := List.mem_of_mem_filter hj0
      have hr := h2 j0 hmem
      simp [restampJob, hr]
  · intro j hj
    exact absurd hj (List.not_mem_nil j)
  · exact Nat.zero_le _

theorem queueInvariant_cancel (st : ApiState)
    (h : QueueInvariant st) : QueueInvariant (handle_cancel st) := h

theorem queueInvariant_enable (st : ApiState)
    (h : QueueInvariant st) : QueueInvariant (handle_enable st) := h

theorem queueInvariant_disable (st : ApiState)
    (h : QueueInvariant st) : QueueInvariant (handle_disable st) :=
  ⟨h.1, fun j hj => absurd hj (List.not_mem_nil j), Nat.zero_le _⟩

theorem queueInvariant_reachable (st : ApiState) (h : ApiReachable st) :
    QueueInvariant st := by
  induction h with
  | init st hq hd =>
    exact ⟨by simp [hq], by simp [hd], by simp [hd, MAX_DEFERRED]⟩
  | step st st' h hs ih =>
    cases hs with
    | speak req => exact queueInvariant_speak st req ih
    | consume cancelled => exact queueInvariant_consume st cancelled ih
    | userInput sid => exact queueInvariant_userInput st sid ih
    | cancel => exact queueInvariant_cancel st ih
    | enable => exact queueInvariant_enable st ih
    | disable => exact queueInvariant_disable st ih

/-- C2 — confirmed. In every reachable state of the TTS API, every job in
the queue (hence every job the consumer can dequeue) has `retries ≤ 1`,
and `retries = 2` is unreachable; moreover the deferred list only ever
holds jobs with `retries = 0`, so the single `+1` of `/user-input` is the
only way to reach `retries = 1`. -/
theorem retries_le_one_reachable (st : ApiState) (h : ApiReachable st) :
    (∀ j ∈ st.queue, j.retries ≤ 1 ∧ j.retries ≠ 2) ∧
    (∀ j ∈ st.deferred, j.retries = 0) := by
  obtain ⟨h1, h2, _⟩ := queueInvariant_reachable st h
  exact ⟨fun j hj => ⟨h1 j hj, by have := h1 j hj; omega⟩, h2⟩

/-- Witness for `retries_le_one_reachable`: the state reached from the
start state by one accepted `/speak` request. -/
theorem retries_le_one_reachable_witness :
    (∀ j ∈ (handle_speak initialApiState sampleReq).1.queue,
      j.retries ≤ 1 ∧ j.retries ≠ 2) ∧
    (∀ j ∈ (handle_speak initialApiState sampleReq).1.deferred, j.retries = 0) :=
  retries_le_one_reachable (handle_speak initialApiState sampleReq).1
    (ApiReachable.step initialApiState (handle_speak initialApiState sampleReq).1
      (ApiReachable.init initialApiState rfl rfl)
      (ApiStep.speak initialApiState sampleReq))

/-- C4 — confirmed. In every reachable state of the TTS API the deferred
list holds at most `MAX_DEFERRED = 20` items: both push sites check the
length under the lock first, `/user-input` drains the list, and
`/disable` clears it. -/
theorem deferred_within_capacity (st : ApiState) (h : ApiReachable st) :
    st.deferred.length ≤ MAX_DEFERRED :=
  (queueInvariant_reachable st h).2.2

/-- Witness for `deferred_within_capacity`: the state reached from the
start state by one `/speak` and one consumer iteration. -/
theorem deferred_within_capacity_witness :
    (consumerStep (handle_speak initialApiState sampleReq).1 false).1.deferred.length
      ≤ MAX_DEFERRED :=
  deferred_within_capacity _
    (ApiReachable.step _ _
      (ApiReachable.step _ _
        (ApiReachable.init initialApiState rfl rfl)
        (ApiStep.speak initialApiState sampleReq))
      (ApiStep.consume (handle_speak initialApiState sampleReq).1 false))

-- ## Hook dispatcher: per-session Stop dedup

theorem is_duplicate_stop_fresh (store : DedupStore) (sid text key : RStr)
    (hkey : shortStopId sid = some key) (hfresh : store key ≠ text) :
    is_duplicate_stop store sid text =
      some (fun k => if k = key then text else store k, false) := by
  unfold is_duplicate_stop
  rw [hkey, Option.map_some']
  have hb : (store key == text) = false := beq_eq_false_iff_ne.mpr hfresh
  simp only [hb]

theorem is_duplicate_stop_hit (store : DedupStore) (sid text key : RStr)
    (hkey : shortStopId sid = some key) (hhit : store key = text) :
    is_duplicate_stop store sid text =
      some (fun k => if k = key then text else store k, true) := by
  unfold is_duplicate_stop
  rw [hkey, Option.map_some']
  have hb : (store key == text) = true := beq_iff_eq.mpr hhit
  simp only [hb]

/-- C8 — confirmed. Two consecutive Stop events with the same extracted
assistant text and the same session id, starting from a marker that does
not already record that text and a focus session, post exactly one
`/speak` request: the first invocation speaks the text (with
summarization and reminder) and records it in the session's marker; the
second finds the stored marker equal to the text and skips without
posting, whatever the focus or idleness situation then is. -/
theorem stop_dedup_consecutive (store : DedupStore) (sid text key project project2 : RStr)
    (idle isFocus2 idle2 : Bool)
    (hkey : shortStopId sid = some key) (hfresh : store key ≠ text) :
    ∃ store1 : DedupStore,
      handle_stop store sid true (some text) true idle project =
        some ⟨store1,
          [{ text := text, summarize := true, event_type := "stop".toList,
             start_reminder := true }], "spoke".toList⟩ ∧
      store1 key = text ∧
      handle_stop store1 sid true (some text) isFocus2 idle2 project2 =
        some ⟨store1, [], "skipped".toList⟩ := by
  refine ⟨fun k => if k = key then text else store k, ?_, if_pos rfl, ?_⟩
  · simp only [handle_stop]
    rw [is_duplicate_stop_fresh store sid text key hkey hfresh]
    simp
  · have hhit : (fun k => if k = key then text else store k) key = text := if_pos rfl
    simp only [handle_stop]
    rw [is_duplicate_stop_hit (fun k => if k = key then text else store k)
      sid text key hkey hhit]
    have hsame : (fun k => if k = key then text
          else (fun k2 => if k2 = key then text else store k2) k) =
        (fun k2 => if k2 = key then text else store k2) := by
      funext k
      by_cases hk : k = key <;> simp [hk]
    simp [hsame]

/-- Witness for `stop_dedup_consecutive` on an initially empty marker
store. -/
theorem stop_dedup_consecutive_witness :
    ∃ store1 : DedupStore,
      handle_stop (fun _ => []) "abc".toList true (some "done".toList) true false
          "proj".toList =
        some ⟨store1,
          [{ text := "done".toList, summarize := true, event_type := "stop".toList,
             start_reminder := true }], "spoke".toList⟩ ∧
      store1 "abc".toList = "done".toList ∧
      handle_stop store1 "abc".toList true (some "done".toList) false true
          "proj2".toList =
        some ⟨store1, [], "skipped".toList⟩ :=
  stop_dedup_consecutive (fun _ => []) "abc".toList "done".toList "abc".toList
    "proj".toList "proj2".toList false false true (by decide) (by decide)

-- ## Trailing-salutation strip

/-- C7 — counterexample. On `stripCexInput` the trimmed text ends with the
segment `Than‹U+212A› You`, whose Unicode lowercase is exactly `thank you`
(a case-insensitive match), and the preceding prefix has 11 (> 10) words —
so by the claim the suffix should be removed, the result being the
preceding prefix. Instead `strip_trailing_thankyou` slices off only the 9
bytes of the ASCII pattern, where the matched segment occupies 11 bytes,
and returns a string ending in `Th` that is neither the preceding prefix
nor the text unchanged. -/
theorem strip_thankyou_cex :
    strip_trailing_thankyou stripCexInput = some stripCexCodeResult ∧
    rustTrim stripCexInput = stripCexPre ++ stripCexMatched ∧
    rustToLowercase stripCexMatched = "thank you".toList ∧
    wordCount (rustTrim stripCexPre) > 10 ∧
    stripCexCodeResult ≠ rustTrim stripCexPre ∧
    stripCexCodeResult ≠ rustTrim stripCexInput := by
  refine ⟨?_, ?_, ?_, ?_, ?_, ?_⟩ <;> decide

theorem utf8Size_one_of_ascii {c : Char} (hc : c.toNat < 0x80) : utf8Size c = 1 := by
  unfold utf8Size
  rw [if_pos hc]

theorem byteLen_ascii {l : RStr} (h : IsAsciiStr l) : byteLen l = l.length := by
  induction l with
  | nil => rfl
  | cons c t ih =>
    rw [byteLen_cons, utf8Size_one_of_ascii (h c (List.mem_cons_self c t)),
      ih (fun x hx => h x (List.mem_cons_of_mem c hx)), List.length_cons]
    omega

theorem takeBytes_ascii {l : RStr} (h : IsAsciiStr l) :
    ∀ k, k ≤ l.length → takeBytes l k = some (l.take k) := by
  induction l with
  | nil =>
    intro k hk
    have : k = 0 := by simpa using hk
    rw [this]
    rfl
  | cons c t ih =>
    intro k hk
    cases k with
    | zero => rfl
    | succ m =>
      have hc := utf8Size_one_of_ascii (h c (List.mem_cons_self c t))
      simp only [takeBytes, hc, Nat.add_sub_cancel]
      rw [if_pos (by omega),
        ih (fun x hx => h x (List.mem_cons_of_mem c hx)) m (by simpa using hk)]
      rfl

theorem isAsciiStr_rustTrim {l : RStr} (h : IsAsciiStr l) : IsAsciiStr (rustTrim l) :=
  fun c hc => h c (mem_rustTrim hc)

theorem charLowerRust_length_ascii {c : Char} (hc : c.toNat < 0x80) :
    (charLowerRust c).length = 1 := by
  unfold charLowerRust
  rw [if_neg (by omega), if_neg (by omega)]
  by_cases hr : ('A' ≤ c && c ≤ 'Z') = true
  · rw [if_pos hr]; rfl
  · rw [if_neg hr]; rfl

theorem rustToLowercase_length_ascii {l : RStr} (h : IsAsciiStr l) :
    (rustToLowercase l).length = l.length := by
  induction l with
  | nil => rfl
  | cons c t ih =>
    show (charLowerRust c ++ rustToLowercase t).length = (c :: t).length
    rw [List.length_append, charLowerRust_length_ascii (h c (List.mem_cons_self c t)),
      ih (fun x hx => h x (List.mem_cons_of_mem c hx)), List.length_cons]
    omega

theorem stripGo_ascii (trimmed lower : RStr) (h : IsAsciiStr trimmed)
    (hlen : lower.length = trimmed.length) :
    ∀ sufs : List RStr, (∀ s ∈ sufs, byteLen s = s.length) →
      stripGo trimmed lower sufs = some (stripSpecGo trimmed lower sufs) := by
  intro sufs
  induction sufs with
  | nil => intro _; rfl
  | cons suf rest ih =>
    intro hs
    have hsuf : byteLen suf = suf.length := hs suf (List.mem_cons_self _ _)
    have hrest : ∀ s ∈ rest, byteLen s = s.length :=
      fun s h2 => hs s (List.mem_cons_of_mem _ h2)
    by_cases hmatch : suf.isSuffixOf lower = true
    · have hsuflen : suf.length ≤ trimmed.length := by
        have := List.IsSuffix.length_le (List.isSuffixOf_iff_suffix.mp hmatch)
        omega
      have hnotlt : ¬(byteLen trimmed < byteLen suf) := by
        rw [byteLen_ascii h, hsuf]
        omega
      have htb : takeBytes trimmed (byteLen trimmed - byteLen suf) =
          some (trimmed.take (trimmed.length - suf.length)) := by
        rw [byteLen_ascii h, hsuf]
        exact takeBytes_ascii h _ (by omega)
      have hL : stripGo trimmed lower (suf :: rest) =
          (if wordCount (rustTrim (trimmed.take (trimmed.length - suf.length))) > 10
           then some (rustTrim (trimmed.take (trimmed.length - suf.length)))
           else stripGo trimmed lower rest) := by
        simp only [stripGo]
        rw [if_pos hmatch, if_neg hnotlt, htb]
      have hR : stripSpecGo trimmed lower (suf :: rest) =
          (if wordCount (rustTrim (trimmed.take (trimmed.length - suf.length))) > 10
           then rustTrim (trimmed.take (trimmed.length - suf.length))
           else stripSpecGo trimmed lower rest) := by
        simp only [stripSpecGo]
        rw [if_pos hmatch]
      rw [hL, hR]
      by_cases hwc : wordCount (rustTrim (trimmed.take (trimmed.length - suf.length))) > 10
      · rw [if_pos hwc, if_pos hwc]
      · rw [if_neg hwc, if_neg hwc]
        exact ih hrest
    · have hL : stripGo trimmed lower (suf :: rest) = stripGo trimmed lower rest := by
        simp only [stripGo]
        rw [if_neg hmatch]
      have hR : stripSpecGo trimmed lower (suf :: rest) = stripSpecGo trimmed lower rest := by
        simp only [stripSpecGo]
        rw [if_neg hmatch]
      rw [hL, hR]
      exact ih hrest

/-- C7 — amended. For every ASCII input, `strip_trailing_thankyou` never
fails and removes the case-insensitive suffix `thank you` / `thank you.` /
`thank you!` exactly when the preceding prefix has more than 10
whitespace-separated words, otherwise returning the text unchanged up to
trimming — the behaviour captured character-for-character by `stripSpec`.
(On non-ASCII input the byte-count slice can remove the wrong amount, as
`strip_thankyou_cex` shows.) -/
theorem strip_thankyou_ascii (text : RStr) (h : IsAsciiStr text) :
    strip_trailing_thankyou text = some (stripSpec text) := by
  unfold strip_trailing_thankyou stripSpec
  have htr : IsAsciiStr (rustTrim text) := isAsciiStr_rustTrim h
  exact stripGo_ascii (rustTrim text) (rustToLowercase (rustTrim text)) htr
    (rustToLowercase_length_ascii htr) THANK_SUFFIXES (by decide)

/-- Witness for `strip_thankyou_ascii`: a 12-word ASCII dictation ending in
`thank you.`, which the strip removes. -/
theorem strip_thankyou_ascii_witness :
    strip_trailing_thankyou stripWitnessInput = some (stripSpec stripWitnessInput) ∧
    stripSpec stripWitnessInput =
      "Work on the main branch is done and the tests pass now,".toList :=
  ⟨strip_thankyou_ascii stripWitnessInput (by decide), by decide⟩
